import Mathlib

/-!
Verification development for the terminusdb-surgery tool (src/main.rs).

The tool inspects and builds auxiliary index structures for an immutable
layer-archive file.  The CLI glue (command dispatch, the extract / report /
validate / triple-count subcommands, output path construction and
layer-or-label resolution) lives in src/main.rs and is embedded here
directly.  The data structures it consumes (archive header, slice reader,
control word, log array, dictionary stream, index builders) live in the
terminus_store library, which is not part of this repository's sources;
those are modelled from the specification, as marked on each definition.
-/

/-- Modelled from the spec: the closed enumeration of segment kinds of a
layer archive (the library's LayerFileEnum).  The spec fixes the families
(dictionary blocks and offsets, adjacency-list permutations with nums and
bit-index files, predicate-index files, a rollup marker) and that the
rollup marker is the final ordinal; the exact variant list lives in the
library's consts module, which is not under src. -/
inductive LayerFileEnum where
  | NodeDictionaryBlocks
  | NodeDictionaryOffsets
  | PredicateDictionaryBlocks
  | PredicateDictionaryOffsets
  | ValueDictionaryBlocks
  | ValueDictionaryOffsets
  | PosSpOAdjacencyListNums
  | PosSpOAdjacencyListBits
  | PosSpOAdjacencyListBitIndexBlocks
  | PosSpOAdjacencyListBitIndexSBlocks
  | PosOPsAdjacencyListNums
  | PosOPsAdjacencyListBits
  | PosOPsAdjacencyListBitIndexBlocks
  | PosOPsAdjacencyListBitIndexSBlocks
  | PredicateWaveletBits
  | PredicateWaveletBlocks
  | PredicateWaveletSBlocks
  | Rollup
deriving DecidableEq

/-- The segment kinds in ordinal order, mirroring the library enum's
ordinal-based iteration used by the header report loop in src/main.rs. -/
def LayerFileEnum.all : List LayerFileEnum :=
  [.NodeDictionaryBlocks, .NodeDictionaryOffsets,
   .PredicateDictionaryBlocks, .PredicateDictionaryOffsets,
   .ValueDictionaryBlocks, .ValueDictionaryOffsets,
   .PosSpOAdjacencyListNums, .PosSpOAdjacencyListBits,
   .PosSpOAdjacencyListBitIndexBlocks, .PosSpOAdjacencyListBitIndexSBlocks,
   .PosOPsAdjacencyListNums, .PosOPsAdjacencyListBits,
   .PosOPsAdjacencyListBitIndexBlocks, .PosOPsAdjacencyListBitIndexSBlocks,
   .PredicateWaveletBits, .PredicateWaveletBlocks, .PredicateWaveletSBlocks,
   .Rollup]

/-- The ordinal of a segment kind (the Rust `as usize` cast). -/
def LayerFileEnum.to_usize : LayerFileEnum → Nat
  | .NodeDictionaryBlocks => 0
  | .NodeDictionaryOffsets => 1
  | .PredicateDictionaryBlocks => 2
  | .PredicateDictionaryOffsets => 3
  | .ValueDictionaryBlocks => 4
  | .ValueDictionaryOffsets => 5
  | .PosSpOAdjacencyListNums => 6
  | .PosSpOAdjacencyListBits => 7
  | .PosSpOAdjacencyListBitIndexBlocks => 8
  | .PosSpOAdjacencyListBitIndexSBlocks => 9
  | .PosOPsAdjacencyListNums => 10
  | .PosOPsAdjacencyListBits => 11
  | .PosOPsAdjacencyListBitIndexBlocks => 12
  | .PosOPsAdjacencyListBitIndexSBlocks => 13
  | .PredicateWaveletBits => 14
  | .PredicateWaveletBlocks => 15
  | .PredicateWaveletSBlocks => 16
  | .Rollup => 17

/-- LayerFileEnum::from_usize, as used by the header report loop. -/
def LayerFileEnum.from_usize (i : Nat) : Option LayerFileEnum :=
  LayerFileEnum.all[i]?

/-- The debug name of a segment kind, as printed by the header report. -/
def segName : LayerFileEnum → String
  | .NodeDictionaryBlocks => "NodeDictionaryBlocks"
  | .NodeDictionaryOffsets => "NodeDictionaryOffsets"
  | .PredicateDictionaryBlocks => "PredicateDictionaryBlocks"
  | .PredicateDictionaryOffsets => "PredicateDictionaryOffsets"
  | .ValueDictionaryBlocks => "ValueDictionaryBlocks"
  | .ValueDictionaryOffsets => "ValueDictionaryOffsets"
  | .PosSpOAdjacencyListNums => "PosSpOAdjacencyListNums"
  | .PosSpOAdjacencyListBits => "PosSpOAdjacencyListBits"
  | .PosSpOAdjacencyListBitIndexBlocks => "PosSpOAdjacencyListBitIndexBlocks"
  | .PosSpOAdjacencyListBitIndexSBlocks => "PosSpOAdjacencyListBitIndexSBlocks"
  | .PosOPsAdjacencyListNums => "PosOPsAdjacencyListNums"
  | .PosOPsAdjacencyListBits => "PosOPsAdjacencyListBits"
  | .PosOPsAdjacencyListBitIndexBlocks => "PosOPsAdjacencyListBitIndexBlocks"
  | .PosOPsAdjacencyListBitIndexSBlocks => "PosOPsAdjacencyListBitIndexSBlocks"
  | .PredicateWaveletBits => "PredicateWaveletBits"
  | .PredicateWaveletBlocks => "PredicateWaveletBlocks"
  | .PredicateWaveletSBlocks => "PredicateWaveletSBlocks"
  | .Rollup => "Rollup"

/-- Modelled from the spec: the filename-to-segment-kind map
(FILENAME_ENUM_MAP of the library's consts module, not under src).  We use
the debug names of the kinds as the file names. -/
def FILENAME_ENUM_MAP (name : String) : Option LayerFileEnum :=
  LayerFileEnum.all.find? (fun ft => segName ft == name)

/-- Modelled from the spec: a parsed archive header is a table mapping
every segment kind to an optional byte range, the ranges being relative to
the start of the segment region. -/
structure ArchiveHeader where
  ranges : LayerFileEnum → Option (Nat × Nat)

/-- Modelled from the spec: ArchiveHeader::range_for returns the optional
range of a segment kind; a miss means the layer has no such segment and is
never an error. -/
def range_for (h : ArchiveHeader) (file_type : LayerFileEnum) : Option (Nat × Nat) :=
  h.ranges file_type

/-- A layer archive as seen after ArchiveHeader::parse_from_reader: the
parsed header together with the bytes of the segment region, which the
reader is positioned at.  Bytes are naturals below 256. -/
structure Archive where
  header : ArchiveHeader
  body : List Nat

/-- The layer contains the given segment. -/
def contains_segment (a : Archive) (ft : LayerFileEnum) : Prop :=
  (a.header.ranges ft).isSome = true

/-- The big-endian 8-byte encoding of a natural number below 2 to the 64. -/
def bytesBE8 (n : Nat) : List Nat :=
  [n / 2 ^ 56 % 256, n / 2 ^ 48 % 256, n / 2 ^ 40 % 256, n / 2 ^ 32 % 256,
   n / 2 ^ 24 % 256, n / 2 ^ 16 % 256, n / 2 ^ 8 % 256, n % 256]

/-- Modelled from the spec: parse_control_word decodes the 8-byte control
word of a dense numeric array into its element count and bit width (the
library's parse_control_word, not under src). -/
def parse_control_word (buf : List Nat) : Nat × Nat :=
  let w := buf.foldl (fun acc b => acc * 256 + b % 256) 0
  (w / 256, w % 256)

/-- Modelled from the spec: the 8-byte control word packing an element
count and a bit width so that decode recovers both. -/
def control_word_encode (count width : Nat) : List Nat :=
  bytesBE8 ((count % 2 ^ 56) * 256 + width % 256)

/-- Modelled from the spec: the byte length of a log array payload of
count elements of the given bit width, rounded to 64-bit word
granularity. -/
def bytes_needed (count width : Nat) : Nat :=
  (count * width + 63) / 64 * 8

/-- Modelled from the spec: LogArray::parse over the control-word-last
(default) layout.  It rejects buffers shorter than one control word and
buffers whose payload length does not match the decoded count and width;
on success it reports the decoded count and width without materializing
the values. -/
def LogArray.parse (buf : List Nat) : Option (Nat × Nat) :=
  if buf.length < 8 then none
  else
    let p := parse_control_word (buf.drop (buf.length - 8))
    if p.2 ≤ 64 ∧ buf.length - 8 = bytes_needed p.1 p.2 then some p else none

/-- Modelled from the spec: LogArray::parse_header_first over the
control-word-first layout; returns the decoded count and width and the
number of remaining bytes after the consumed payload. -/
def LogArray.parse_header_first (buf : List Nat) : Option ((Nat × Nat) × Nat) :=
  if buf.length < 8 then none
  else
    let p := parse_control_word (buf.take 8)
    if p.2 ≤ 64 ∧ bytes_needed p.1 p.2 ≤ buf.length - 8 then
      some (p, buf.length - 8 - bytes_needed p.1 p.2)
    else none

/-- The validate_logarray entry point of src/main.rs: reads the whole
buffer and parses it with the layout selected by the header_first flag;
reports whether the parse succeeded. -/
def validate_logarray (contents : List Nat) (header_first : Bool) : Bool :=
  if header_first then (LogArray.parse_header_first contents).isSome
  else (LogArray.parse contents).isSome

/-- Modelled from the spec: an ArchiveSliceReader is a bounded sequential
reader over one segment: the underlying file bytes, the current absolute
position, and the remaining-length bound. -/
structure ArchiveSliceReader where
  file : List Nat
  pos : Nat
  remaining : Nat

/-- Modelled from the spec: one sequential read of at most n bytes.  The
reader returns no more than n bytes, no more than its remaining bound, and
no more than the file holds past the position; it advances by the bytes
actually delivered. -/
def ArchiveSliceReader.read (r : ArchiveSliceReader) (n : Nat) :
    List Nat × ArchiveSliceReader :=
  let k := min (min n r.remaining) (r.file.length - r.pos)
  ((r.file.drop r.pos).take k, ⟨r.file, r.pos + k, r.remaining - k⟩)

/-- The concatenated output of a sequence of reads of the given sizes. -/
def ArchiveSliceReader.readSeq : ArchiveSliceReader → List Nat → List Nat
  | _, [] => []
  | r, n :: ns => (r.read n).1 ++ (r.read n).2.readSeq ns

/-- The total output a slice reader can deliver; this is what the copy
loop of the Extract command drains into stdout. -/
def ArchiveSliceReader.read_to_end (r : ArchiveSliceReader) : List Nat :=
  (r.file.drop r.pos).take r.remaining

/-- open_slice of src/main.rs: parse the header, look up the range of the
requested segment kind, seek to its start and wrap the file in a slice
reader bounded by the range length. -/
def open_slice (a : Archive) (file_type : LayerFileEnum) : Option ArchiveSliceReader :=
  (range_for a.header file_type).map (fun r => ⟨a.body, r.1, r.2 - r.1⟩)

/-- extract_file of src/main.rs: look up the segment kind for the file
name; when the header holds a range for it, copy the segment through a
slice reader to stdout, otherwise abort with a report that the layer did
not contain the file. -/
def extract_file (a : Archive) (file_name : String) : Except String (List Nat) :=
  match FILENAME_ENUM_MAP file_name with
  | none => .error "unknown file name"
  | some ft =>
    match range_for a.header ft with
    | none => .error ("layer did not contain " ++ file_name)
    | some r => .ok (ArchiveSliceReader.read_to_end ⟨a.body, r.1, r.2 - r.1⟩)

/-- get_triple_count of src/main.rs: parse the header, look up the range
of the subject-predicate-to-object nums segment, seek to its last 8 bytes,
read them and decode the control word; print the decoded element count. -/
def get_triple_count (a : Archive) : Except String Nat :=
  match range_for a.header LayerFileEnum.PosSpOAdjacencyListNums with
  | none => .error "layer has no PosSpOAdjacencyListNums segment"
  | some r =>
    let buf := (a.body.drop (r.2 - 8)).take 8
    if buf.length = 8 then .ok (parse_control_word buf).1
    else .error "could not read control word"

/-- The dictionary kinds of the PrintDict command. -/
inductive DictType where
  | Nodes
  | Predicates
  | Values
deriving DecidableEq

/-- The segment kind holding the blocks of the chosen dictionary, as
selected by print_dict in src/main.rs. -/
def dict_file_type : DictType → LayerFileEnum
  | .Nodes => .NodeDictionaryBlocks
  | .Predicates => .PredicateDictionaryBlocks
  | .Values => .ValueDictionaryBlocks

/-- Modelled from the spec: the dictionary stream decoder (the library's
TfcDictStream, not under src) turns the bytes of a dictionary-blocks
segment into a finite ordered sequence of decoded entries; the
front-coding itself is out of the spec's scope, so entries are modelled as
length-prefixed byte runs. -/
def decode_entries_aux : Nat → List Nat → List (List Nat)
  | 0, _ => []
  | _, [] => []
  | fuel + 1, n :: rest => rest.take n :: decode_entries_aux fuel (rest.drop n)

/-- The entry sequence of a dictionary-blocks segment; the byte count of
the segment bounds the number of entries, so it serves as fuel. -/
def decode_entries (bytes : List Nat) : List (List Nat) :=
  decode_entries_aux bytes.length bytes

/-- The enumeration step of print_dict in src/main.rs: each decoded entry
is printed with its 1-based ordinal. -/
def print_dict_lines (entries : List (List Nat)) : List (Nat × List Nat) :=
  entries.enum.map (fun p => (p.1 + 1, p.2))

/-- print_dict of src/main.rs: open a slice reader over the chosen
dictionary-blocks segment, decode its entry stream and print every entry
with its 1-based ordinal. -/
def print_dict (a : Archive) (t : DictType) : Except String (List (Nat × List Nat)) :=
  match open_slice a (dict_file_type t) with
  | none => .error "segment not present"
  | some r => .ok (print_dict_lines (decode_entries r.read_to_end))

/-- The relation ordering header report tuples by their length component;
the report sorts ascending by it and then reverses. -/
abbrev reportLe (x y : String × Nat × Nat × Nat) : Prop :=
  x.2.2.2 ≤ y.2.2.2

instance : IsTotal (String × Nat × Nat × Nat) reportLe :=
  ⟨fun _ _ => Nat.le_total _ _⟩

instance : IsTrans (String × Nat × Nat × Nat) reportLe :=
  ⟨fun _ _ _ => Nat.le_trans⟩

/-- The pure report of parse_and_print_header in src/main.rs: loop over
the segment ordinals up to the rollup marker, collect the name, start, end
and length of every present segment, and when the sort flag is set, sort
ascending by length and reverse.  The report is a pure transform of the
parsed header. -/
def parse_and_print_header_report (h : ArchiveHeader) (sort : Bool) :
    List (String × Nat × Nat × Nat) :=
  let result := (List.range (LayerFileEnum.to_usize .Rollup + 1)).filterMap
    (fun i => (LayerFileEnum.from_usize i).bind
      (fun ft => (h.ranges ft).map (fun r => (segName ft, r.1, r.2, r.2 - r.1))))
  if sort then (List.insertionSort reportLe result).reverse else result

/-- The canonical per-kind tuple list of a header: one tuple for every
present segment, in enum order. -/
def header_segment_tuples (h : ArchiveHeader) : List (String × Nat × Nat × Nat) :=
  LayerFileEnum.all.filterMap
    (fun ft => (h.ranges ft).map (fun r => (segName ft, r.1, r.2, r.2 - r.1)))

/-- The arguments of the BuildObjectIndex command of src/main.rs; the
command takes no scratch-directory argument. -/
structure BuildObjectIndexArgs where
  sp_o_nums_file : String
  sp_o_bits_file : String
  o_ps_dir : String
  objects_file : Option String

/-- The output files build_object_index creates under the caller-chosen
directory, as directory and file-name pairs. -/
def object_index_output_files (o_ps_dir : String) : List (String × String) :=
  [(o_ps_dir, "nums"), (o_ps_dir, "bits"),
   (o_ps_dir, "bit_index_blocks"), (o_ps_dir, "bit_index_sblocks")]

/-- The call build_object_index makes into the library's object-index
builder: the input files, the four output files, the optional objects file
and the scratch directory passed for the external sort. -/
structure ObjectIndexBuildCall where
  sp_o_nums : String
  sp_o_bits : String
  outputs : List (String × String)
  objects : Option String
  scratch : Option String

/-- build_object_index of src/main.rs: construct the four output paths
under the caller-chosen directory and call the library builder, passing
the fixed path /tmp/ as the scratch directory. -/
def build_object_index (args : BuildObjectIndexArgs) : ObjectIndexBuildCall :=
  ⟨args.sp_o_nums_file, args.sp_o_bits_file,
   object_index_output_files args.o_ps_dir, args.objects_file, some "/tmp/"⟩

/-- The arguments of the BuildPredicateIndex command of src/main.rs. -/
structure BuildPredicateIndexArgs where
  s_p_nums_file : String
  predicate_index_dir : String

/-- The output files build_predicate_index creates under the caller-chosen
directory. -/
def predicate_index_output_files (dir : String) : List (String × String) :=
  [(dir, "bits"), (dir, "blocks"), (dir, "sblocks")]

/-- The call build_predicate_index makes into the library's predicate
index builder. -/
structure PredicateIndexBuildCall where
  s_p_nums : String
  outputs : List (String × String)

/-- build_predicate_index of src/main.rs: construct the three output
paths under the caller-chosen directory and call the library builder. -/
def build_predicate_index (args : BuildPredicateIndexArgs) : PredicateIndexBuildCall :=
  ⟨args.s_p_nums_file, predicate_index_output_files args.predicate_index_dir⟩

/-- Resolution outcome of open_layer_or_label in src/main.rs. -/
inductive LayerResolution where
  | byLabel (label : String)
  | byLayer (layer : String)
deriving DecidableEq

/-- open_layer_or_label of src/main.rs: exactly one of a layer id or a
label name must be supplied; any other combination aborts with the fixed
message. -/
def open_layer_or_label (layer label : Option String) : Except String LayerResolution :=
  match layer, label with
  | none, none => .error "You must specify either a layer or a label"
  | none, some label_name => .ok (.byLabel label_name)
  | some layer_name, none => .ok (.byLayer layer_name)
  | some _, some _ => .error "You must specify either a layer or a label"

/-- An emitted object-predicate pair of the object-index build. -/
abbrev OP := Nat × Nat

/-- The sort order of the object-index build: pairs ordered by object,
then by the paired id. -/
abbrev opLe (x y : OP) : Prop :=
  x.1 < y.1 ∨ (x.1 = y.1 ∧ x.2 ≤ y.2)

instance (x y : OP) : Decidable (opLe x y) :=
  inferInstanceAs (Decidable (_ ∨ _))

instance : IsTotal OP opLe :=
  ⟨fun x y => by rcases Nat.lt_trichotomy x.1 y.1 with h | h | h
                 · exact Or.inl (Or.inl h)
                 · rcases Nat.le_total x.2 y.2 with h2 | h2
                   · exact Or.inl (Or.inr ⟨h, h2⟩)
                   · exact Or.inr (Or.inr ⟨h.symm, h2⟩)
                 · exact Or.inr (Or.inl h)⟩

instance : IsTrans OP opLe :=
  ⟨fun x y z hxy hyz => by rcases hxy with h | ⟨h, h2⟩ <;> rcases hyz with g | ⟨g, g2⟩
                           · exact Or.inl (Nat.lt_trans h g)
                           · exact Or.inl (g ▸ h)
                           · exact Or.inl (h ▸ g)
                           · exact Or.inr ⟨h.trans g, Nat.le_trans h2 g2⟩⟩

instance : IsAntisymm OP opLe :=
  ⟨fun x y hxy hyx => by
    obtain ⟨a, b⟩ := x
    obtain ⟨c, d⟩ := y
    simp only [opLe] at hxy hyx
    have h1 : a = c := by omega
    have h2 : b = d := by omega
    rw [h1, h2]⟩

/-- Modelled from the spec: the pair-emission pass of the object-index
build (library code, not under src): every position of the
subject-predicate-to-object nums array yields a pair of its destination id
and the id of its run, runs being delimited by the companion bits. -/
def emit_pairs : List Nat → List Bool → Nat → List OP
  | [], _, _ => []
  | o :: nums, bits, sp =>
    (o, sp) :: emit_pairs nums bits.tail (if bits.head? = some true then sp + 1 else sp)

/-- Modelled from the spec: the run decomposition of the external sort;
the memory budget m bounds every spilled run to at most m plus one
pairs. -/
def toRuns (m : Nat) (l : List OP) : List (List OP) :=
  match l with
  | [] => []
  | x :: xs => (x :: xs.take m) :: toRuns m (xs.drop m)
termination_by l.length
decreasing_by simp [List.length_drop]; omega

/-- Modelled from the spec: the merge step of the external merge sort. -/
def mergeOP : List OP → List OP → List OP
  | [], ys => ys
  | xs, [] => xs
  | x :: xs, y :: ys =>
    if opLe x y then x :: mergeOP xs (y :: ys) else y :: mergeOP (x :: xs) ys
termination_by a b => a.length + b.length

/-- Modelled from the spec: the k-way merge of the sorted spilled runs. -/
def merge_runs (rs : List (List OP)) : List OP :=
  rs.foldr mergeOP []

/-- Modelled from the spec: the disk-backed bounded-memory external merge
sort of the object-index build: decompose the emitted pairs into runs of
at most m plus one pairs, sort each run, spill it, and k-way merge the
spilled runs. -/
def external_sort (m : Nat) (l : List OP) : List OP :=
  merge_runs ((toRuns m l).map (List.insertionSort opLe))

/-- Modelled from the spec: the run-boundary bits of the re-encoded
object-to-predicate adjacency: a position is marked when the next pair
starts a new object run, and the final position is always marked. -/
def run_boundary_bits : List OP → List Bool
  | [] => []
  | [_] => [true]
  | x :: y :: rest => decide (x.1 ≠ y.1) :: run_boundary_bits (y :: rest)

/-- Modelled from the spec: the run-length re-encoding of the sorted pairs
into the destination nums and bits pair. -/
def run_encode (sorted : List OP) : List Nat × List Bool :=
  (sorted.map (fun p => p.2), run_boundary_bits sorted)

/-- Modelled from the spec: the object-index build pipeline: emit one pair
per source position, external-sort them with memory budget m, and
run-length re-encode the result. -/
def build_object_index_model (m : Nat) (nums : List Nat) (bits : List Bool) :
    List Nat × List Bool :=
  run_encode (external_sort m (emit_pairs nums bits 1))

/-- The 8-bit big-endian bit decomposition of a predicate id. -/
def bitsOfNat8 (p : Nat) : List Bool :=
  (List.range 8).map (fun i => decide (p / 2 ^ (7 - i) % 2 = 1))

/-- Modelled from the spec: the per-position markers of the predicate
index. -/
def wavelet_bits (l : List Nat) : List Bool :=
  l.flatMap bitsOfNat8

/-- Modelled from the spec: cumulative rank snapshots at fixed block
boundaries over the marker bits. -/
def rank_snapshots (blockSize : Nat) (bits : List Bool) : List Nat :=
  (List.range (bits.length / blockSize)).map
    (fun i => (bits.take ((i + 1) * blockSize)).count true)

/-- Modelled from the spec: the predicate-index build: one forward scan of
the subject-to-predicate sequence producing the bits, blocks and sblocks
outputs, snapshots being taken at block and superblock granularity. -/
def build_predicate_index_model (s_p_nums : List Nat) :
    List Bool × List Nat × List Nat :=
  (wavelet_bits s_p_nums,
   rank_snapshots 64 (wavelet_bits s_p_nums),
   rank_snapshots 512 (wavelet_bits s_p_nums))

/-- A concrete archive used to witness the slice-reader theorems: one
segment named Rollup covering bytes 1 to 4 of a 5-byte body. -/
def wArchive : Archive :=
  ⟨⟨fun k => match k with
     | .Rollup => some (1, 4)
     | _ => none⟩,
   [10, 20, 30, 40, 50]⟩

/-- A concrete archive with no segments at all, witnessing the absence
branch of the Extract command. -/
def wArchiveEmpty : Archive :=
  ⟨⟨fun _ => none⟩, [1, 2, 3]⟩

/-- A concrete archive whose PosSpOAdjacencyListNums segment is a
well-formed log array of two elements of width 8, witnessing the
triple-count theorem. -/
def wArchiveTriples : Archive :=
  ⟨⟨fun k => match k with
     | .PosSpOAdjacencyListNums => some (0, 16)
     | _ => none⟩,
   List.replicate 8 0 ++ control_word_encode 2 8⟩

/-- A concrete archive whose node-dictionary-blocks segment decodes to two
entries, witnessing the print-dict theorem. -/
def wArchiveDict : Archive :=
  ⟨⟨fun k => match k with
     | .NodeDictionaryBlocks => some (0, 5)
     | _ => none⟩,
   [2, 9, 9, 1, 7]⟩

/-- C10: layer resolution requires exactly one of a layer identifier or a
label name; when neither or both are supplied, open_layer_or_label aborts
with the fixed message instead of resolving a layer. -/
theorem open_layer_or_label_requires_exactly_one (layer label : Option String)
    (h : (layer = none ∧ label = none) ∨ (layer ≠ none ∧ label ≠ none)) :
    open_layer_or_label layer label =
      .error "You must specify either a layer or a label" := by
  rcases h with ⟨h1, h2⟩ | ⟨h1, h2⟩
  · rw [h1, h2]; rfl
  · match layer, label with
    | some a, some b => rfl
    | none, _ => exact absurd rfl h1
    | some _, none => exact absurd rfl h2

/-- Witness for C10: with neither a layer nor a label supplied, the
resolution aborts with the fixed message. -/
theorem open_layer_or_label_requires_exactly_one_witness :
    open_layer_or_label none none =
      .error "You must specify either a layer or a label" :=
  open_layer_or_label_requires_exactly_one none none (Or.inl ⟨rfl, rfl⟩)

/-- C5 counterexample: the scratch directory of the object-index build is
not an explicit input supplied by the caller: two invocations differing in
every caller-supplied argument both pass the fixed path /tmp/, which is
none of the supplied values. -/
theorem scratch_dir_not_caller_supplied :
    (build_object_index ⟨"numsA", "bitsA", "dirA", none⟩).scratch = some "/tmp/"
    ∧ (build_object_index ⟨"numsB", "bitsB", "dirB", some "objB"⟩).scratch = some "/tmp/"
    ∧ "/tmp/" ∉ ["numsA", "bitsA", "dirA", "numsB", "bitsB", "dirB", "objB"] := by
  refine ⟨rfl, rfl, ?_⟩
  decide

/-- C5 amended: the scratch directory for the external-sort spill is not a
caller input; for every invocation the build passes the fixed system temp
location /tmp/ as the scratch directory to the index builder. -/
theorem scratch_dir_always_tmp (args : BuildObjectIndexArgs) :
    (build_object_index args).scratch = some "/tmp/" :=
  rfl

/-- C4: the object-index build writes exactly the four named files nums,
bits, bit_index_blocks and bit_index_sblocks under the caller-chosen
output directory, and the predicate-index build writes exactly the three
named files bits, blocks and sblocks under the caller-chosen output
directory. -/
theorem index_build_output_layout (args : BuildObjectIndexArgs)
    (pargs : BuildPredicateIndexArgs) :
    (build_object_index args).outputs = object_index_output_files args.o_ps_dir
    ∧ (build_object_index args).outputs.map Prod.snd =
        ["nums", "bits", "bit_index_blocks", "bit_index_sblocks"]
    ∧ (build_object_index args).outputs.map Prod.fst = List.replicate 4 args.o_ps_dir
    ∧ ((build_object_index args).outputs.map Prod.snd).Nodup
    ∧ (build_predicate_index pargs).outputs =
        predicate_index_output_files pargs.predicate_index_dir
    ∧ (build_predicate_index pargs).outputs.map Prod.snd = ["bits", "blocks", "sblocks"]
    ∧ (build_predicate_index pargs).outputs.map Prod.fst =
        List.replicate 3 pargs.predicate_index_dir
    ∧ ((build_predicate_index pargs).outputs.map Prod.snd).Nodup := by
  refine ⟨rfl, rfl, rfl, ?_, rfl, rfl, rfl, ?_⟩
  · show (["nums", "bits", "bit_index_blocks", "bit_index_sblocks"] : List String).Nodup
    decide
  · show (["bits", "blocks", "sblocks"] : List String).Nodup
    decide

/-- C7: the log-array layout is selected by the header-first flag alone,
never inferred from the buffer: validation parses with the
control-word-first layout exactly when the flag is set and with the
control-word-last layout when it is unset; the two layouts genuinely
disagree on a concrete buffer, so the runtime choice matters. -/
theorem validate_logarray_layout_by_flag :
    (∀ (c : List Nat) (hf : Bool),
      validate_logarray c hf =
        (if hf then (LogArray.parse_header_first c).isSome
         else (LogArray.parse c).isSome))
    ∧ (LogArray.parse_header_first
        (control_word_encode 1 1 ++ List.replicate 8 0)).isSome = true
    ∧ (LogArray.parse (control_word_encode 1 1 ++ List.replicate 8 0)).isSome = false
    ∧ validate_logarray (control_word_encode 1 1 ++ List.replicate 8 0) true = true
    ∧ validate_logarray (control_word_encode 1 1 ++ List.replicate 8 0) false = false := by
  refine ⟨fun c hf => rfl, by decide, by decide, by decide, by decide⟩

set_option maxHeartbeats 4000000 in
/-- The decode fold over the 8 big-endian bytes of a 64-bit value
reassembles the value. -/
theorem foldl_bytesBE8 (n : Nat) (h : n < 2 ^ 64) :
    (bytesBE8 n).foldl (fun acc b => acc * 256 + b % 256) 0 = n := by
  simp only [bytesBE8, List.foldl, Nat.mod_mod_of_dvd]
  have h56 := Nat.div_add_mod n (2 ^ 56)
  have h48 := Nat.div_add_mod n (2 ^ 48)
  have h40 := Nat.div_add_mod n (2 ^ 40)
  have h32 := Nat.div_add_mod n (2 ^ 32)
  have h24 := Nat.div_add_mod n (2 ^ 24)
  have h16 := Nat.div_add_mod n (2 ^ 16)
  have h8 := Nat.div_add_mod n (2 ^ 8)
  omega

/-- Round trip of the modelled control word codec: decode recovers the
element count and the bit width. -/
theorem parse_control_word_encode (count width : Nat)
    (hc : count < 2 ^ 56) (hw : width < 256) :
    parse_control_word (control_word_encode count width) = (count, width) := by
  have hlt : (count % 2 ^ 56) * 256 + width % 256 < 2 ^ 64 := by omega
  have hfold := foldl_bytesBE8 _ hlt
  simp only [control_word_encode, parse_control_word]
  rw [hfold, Prod.mk.injEq]
  constructor
  · omega
  · omega

/-- The pair-emission pass yields exactly one pair per position of the
source nums array. -/
theorem emit_pairs_length (nums : List Nat) :
    ∀ (bits : List Bool) (sp : Nat), (emit_pairs nums bits sp).length = nums.length := by
  induction nums with
  | nil => intro bits sp; rfl
  | cons o nums ih => intro bits sp; simp [emit_pairs, ih]

/-- C2: for a layer whose header holds a range for the
PosSpOAdjacencyListNums segment and whose segment is a well-formed log
array, the TripleCount command prints the element count decoded from the
trailing 8-byte control word of that segment, and that count equals the
number of (source, destination) pairs the adjacency list emits, i.e. the
layer's triple count. -/
theorem triple_count_from_control_word (a : Archive) (s e w : Nat)
    (nums payload : List Nat)
    (hrange : range_for a.header .PosSpOAdjacencyListNums = some (s, e))
    (hseg : (a.body.drop s).take (e - s) = payload ++ control_word_encode nums.length w)
    (hlen : payload.length + 8 = e - s)
    (hfile : e ≤ a.body.length)
    (hse : s ≤ e)
    (hcount : nums.length < 2 ^ 56)
    (hw : w < 256) :
    get_triple_count a = .ok nums.length
    ∧ ∀ (bits : List Bool) (sp : Nat), (emit_pairs nums bits sp).length = nums.length := by
  have hcw : (control_word_encode nums.length w).length = 8 := rfl
  have he8 : e - 8 = s + payload.length := by omega
  have hdrop : a.body.drop (e - 8) = (a.body.drop s).drop payload.length := by
    rw [he8, List.drop_drop]
  have hbuf : (a.body.drop (e - 8)).take 8 = control_word_encode nums.length w := by
    have h1 : ((a.body.drop s).take (e - s)).drop payload.length =
        ((a.body.drop s).drop payload.length).take (e - s - payload.length) :=
      List.drop_take (e - s) payload.length (a.body.drop s)
    rw [hseg, List.drop_left] at h1
    have h2 : e - s - payload.length = 8 := by omega
    rw [h2] at h1
    rw [hdrop, ← h1]
  refine ⟨?_, emit_pairs_length nums⟩
  simp only [get_triple_count, hrange]
  rw [hbuf, if_pos hcw, parse_control_word_encode nums.length w hcount hw]

/-- Witness for C2: on a concrete archive whose
PosSpOAdjacencyListNums segment holds two elements of width 8, the
TripleCount command prints 2. -/
theorem triple_count_from_control_word_witness :
    get_triple_count wArchiveTriples = .ok 2 := by
  have h := triple_count_from_control_word wArchiveTriples 0 16 8 [5, 7]
    (List.replicate 8 0) rfl (by decide) (by decide) (by decide) (by decide)
    (by decide) (by decide)
  exact h.1

/-- Every sequence of reads through a slice reader yields a prefix of the
reader's remaining slice: no byte outside the bound is ever delivered. -/
theorem readSeq_take (ns : List Nat) :
    ∀ (r : ArchiveSliceReader), ∃ k, k ≤ r.remaining ∧
      r.readSeq ns = (r.file.drop r.pos).take k := by
  induction ns with
  | nil => intro r; exact ⟨0, Nat.zero_le _, rfl⟩
  | cons n ns ih =>
    intro r
    obtain ⟨k', hk', hres⟩ := ih (r.read n).2
    simp only [ArchiveSliceReader.read] at hk' hres
    refine ⟨min (min n r.remaining) (r.file.length - r.pos) + k', by omega, ?_⟩
    show (r.read n).1 ++ ((r.read n).2).readSeq ns = _
    simp only [ArchiveSliceReader.read]
    rw [hres, List.take_add]
    congr 1
    rw [List.drop_drop]

/-- A read sequence whose total requested size covers the remaining bound
drains the slice reader completely; this models the copy loop of the
Extract command, which keeps reading until end of data. -/
theorem readSeq_drain (ns : List Nat) :
    ∀ (r : ArchiveSliceReader), r.remaining ≤ ns.sum →
      r.readSeq ns = r.read_to_end := by
  induction ns with
  | nil =>
    intro r h
    have h0 : r.remaining = 0 := by simpa using h
    simp [ArchiveSliceReader.readSeq, ArchiveSliceReader.read_to_end, h0]
  | cons n ns ih =>
    intro r h
    have hsum : r.remaining ≤ n + ns.sum := by simpa using h
    show (r.read n).1 ++ ((r.read n).2).readSeq ns = _
    rcases Nat.lt_or_ge (r.file.length - r.pos) (min n r.remaining) with hc | hc
    · -- the file is exhausted before the bound: the tail reads return
      -- nothing and the delivered bytes are already the whole slice
      have hK : min (min n r.remaining) (r.file.length - r.pos) =
          r.file.length - r.pos := by omega
      obtain ⟨k', -, hres⟩ := readSeq_take ns (r.read n).2
      simp only [ArchiveSliceReader.read] at hres
      rw [hK] at hres
      have hnil : r.file.drop (r.pos + (r.file.length - r.pos)) = [] :=
        List.drop_eq_nil_of_le (by omega)
      rw [hnil, List.take_nil] at hres
      simp only [ArchiveSliceReader.read, ArchiveSliceReader.read_to_end]
      rw [hK, hres, List.append_nil]
      have hlen : (r.file.drop r.pos).length = r.file.length - r.pos :=
        List.length_drop _ _
      rw [List.take_of_length_le (by omega), List.take_of_length_le (by omega)]
    · -- the file holds enough bytes for this read
      rcases le_or_lt r.remaining n with hn | hn
      · -- one read covers the whole bound; the tail reads return nothing
        have hK : min (min n r.remaining) (r.file.length - r.pos) =
            r.remaining := by omega
        obtain ⟨k', hk', hres⟩ := readSeq_take ns (r.read n).2
        simp only [ArchiveSliceReader.read] at hk' hres
        rw [hK] at hk' hres
        have hk0 : k' = 0 := by omega
        rw [hk0, List.take_zero] at hres
        simp only [ArchiveSliceReader.read, ArchiveSliceReader.read_to_end]
        rw [hK, hres, List.append_nil]
      · -- the read delivers n bytes and the rest of the sequence drains
        -- the remainder by induction
        have hK : min (min n r.remaining) (r.file.length - r.pos) = n := by
          omega
        have hrec := ih (r.read n).2
        simp only [ArchiveSliceReader.read, ArchiveSliceReader.read_to_end]
          at hrec ⊢
        rw [hK] at hrec ⊢
        rw [hrec (by omega)]
        rw [← List.drop_drop, ← List.take_add]
        congr 1
        omega

/-- C1: a slice reader constructed for a segment range yields only bytes
of that range: every read sequence returns a prefix of the segment slice,
a read sequence past the bound short-reads and drains exactly the slice,
and the Extract command, copying a segment through such a reader, writes
at most the range length in bytes, all taken from the segment's range. -/
theorem slice_reader_containment (a : Archive) (name : String)
    (ft : LayerFileEnum) (s e : Nat)
    (hmap : FILENAME_ENUM_MAP name = some ft)
    (hrange : range_for a.header ft = some (s, e)) :
    open_slice a ft = some ⟨a.body, s, e - s⟩
    ∧ (∀ ms : List Nat, ∃ k, k ≤ e - s ∧
        ArchiveSliceReader.readSeq ⟨a.body, s, e - s⟩ ms = (a.body.drop s).take k)
    ∧ (∀ ms : List Nat, e - s ≤ ms.sum →
        ArchiveSliceReader.readSeq ⟨a.body, s, e - s⟩ ms =
          ArchiveSliceReader.read_to_end ⟨a.body, s, e - s⟩)
    ∧ extract_file a name = .ok ((a.body.drop s).take (e - s))
    ∧ ((a.body.drop s).take (e - s)).length ≤ e - s
    ∧ (∀ i, i < ((a.body.drop s).take (e - s)).length →
        ((a.body.drop s).take (e - s))[i]? = a.body[s + i]?) := by
  refine ⟨?_, fun ms => readSeq_take ms ⟨a.body, s, e - s⟩,
    fun ms hms => readSeq_drain ms ⟨a.body, s, e - s⟩ hms, ?_, ?_, ?_⟩
  · simp [open_slice, hrange]
  · simp only [extract_file, hmap, hrange]
    rfl
  · rw [List.length_take]
    omega
  · intro i hi
    rw [List.length_take] at hi
    have hi2 : i < e - s := by omega
    rw [List.getElem?_take, if_pos hi2, List.getElem?_drop]

/-- Witness for C1: on a concrete archive with a single segment covering
bytes 1 to 4 of a 5-byte body, the Extract command emits exactly the
segment's 3 bytes. -/
theorem slice_reader_containment_witness :
    FILENAME_ENUM_MAP "Rollup" = some LayerFileEnum.Rollup
    ∧ extract_file wArchive "Rollup" = .ok [20, 30, 40] := by
  have hm : FILENAME_ENUM_MAP "Rollup" = some LayerFileEnum.Rollup := by decide
  have h := slice_reader_containment wArchive "Rollup" LayerFileEnum.Rollup 1 4
    hm rfl
  refine ⟨hm, ?_⟩
  rw [h.2.2.2.1]
  rfl

/-- C6: range_for returns none exactly when the layer does not contain
the segment and is total otherwise; the Extract command distinguishes this
absence from a fault, aborting with the layer-did-not-contain report
instead of reading, and reads the segment whenever the range is
present. -/
theorem range_for_absence (a : Archive) (name : String) (ft : LayerFileEnum)
    (hmap : FILENAME_ENUM_MAP name = some ft) :
    (range_for a.header ft = none ↔ ¬ contains_segment a ft)
    ∧ (range_for a.header ft = none →
        extract_file a name = .error ("layer did not contain " ++ name))
    ∧ (∀ s e, range_for a.header ft = some (s, e) →
        extract_file a name =
          .ok (ArchiveSliceReader.read_to_end ⟨a.body, s, e - s⟩)) := by
  refine ⟨?_, ?_, ?_⟩
  · unfold range_for contains_segment
    cases a.header.ranges ft <;> simp
  · intro hn
    simp only [extract_file, hmap, hn]
  · intro s e hs
    simp only [extract_file, hmap, hs]

/-- Witness for C6: on a concrete archive with no segments, extracting a
known file name aborts with the layer-did-not-contain report. -/
theorem range_for_absence_witness :
    extract_file wArchiveEmpty "Rollup" = .error ("layer did not contain " ++ "Rollup") := by
  have hm : FILENAME_ENUM_MAP "Rollup" = some LayerFileEnum.Rollup := by decide
  exact (range_for_absence wArchiveEmpty "Rollup" LayerFileEnum.Rollup hm).2.1 rfl

/-- C8: the dictionary stream decoder yields a finite ordered sequence of
decoded entries, and the PrintDict command pairs the i-th entry, counting
from 1, with ordinal i: the printed list has one line per entry and line i
carries ordinal i plus 1 alongside entry i. -/
theorem print_dict_ordinals (a : Archive) (t : DictType) (s e : Nat)
    (hrange : range_for a.header (dict_file_type t) = some (s, e)) :
    print_dict a t = .ok (print_dict_lines (decode_entries
        (ArchiveSliceReader.read_to_end ⟨a.body, s, e - s⟩)))
    ∧ (∀ bytes : List Nat,
        (print_dict_lines (decode_entries bytes)).length =
          (decode_entries bytes).length
        ∧ ∀ i, (print_dict_lines (decode_entries bytes))[i]? =
            ((decode_entries bytes)[i]?).map (fun x => (i + 1, x))) := by
  constructor
  · simp only [print_dict, open_slice, hrange, Option.map_some']
  · intro bytes
    constructor
    · simp [print_dict_lines]
    · intro i
      cases h : (decode_entries bytes)[i]? with
      | none =>
        simp [print_dict_lines, List.getElem?_map, List.getElem?_enum, h]
      | some x =>
        simp [print_dict_lines, List.getElem?_map, List.getElem?_enum, h]

/-- Witness for C8: on a concrete archive whose dictionary segment decodes
to two entries, PrintDict prints them with ordinals 1 and 2. -/
theorem print_dict_ordinals_witness :
    print_dict wArchiveDict DictType.Nodes = .ok [(1, [9, 9]), (2, [7])] := by
  have h := print_dict_ordinals wArchiveDict DictType.Nodes 0 5 rfl
  rw [h.1]
  rfl

/-- Looping over the ordinals of a list's positions and binding through
the positional lookup is the same as filter-mapping the list itself; this
is the bridge between the ordinal-based header loop and the canonical
enum-order tuple list. -/
theorem filterMap_range_getElem {α β : Type} (g : α → Option β) (l : List α) :
    (List.range l.length).filterMap (fun i => (l[i]?).bind g) = l.filterMap g := by
  induction l with
  | nil => rfl
  | cons a l ih =>
    have hc : ((fun i => (a :: l)[i]?.bind g) ∘ Nat.succ) = fun i => l[i]?.bind g :=
      funext fun i => by simp
    cases hga : g a <;>
      simp [List.length_cons, List.range_succ_eq_map, List.filterMap_cons,
        List.filterMap_map, hga, hc, ih]

/-- C3: the header report lists exactly the name, start, end and length
tuples of all present segments of the parsed header — without sorting it
is the canonical enum-order tuple list, and in general it is a
permutation of it — and when the sort option is chosen the report is
ordered descending by length.  The report is a pure function of the
already-parsed header. -/
theorem header_report_exact_and_sorted (h : ArchiveHeader) (b : Bool) :
    parse_and_print_header_report h false = header_segment_tuples h
    ∧ (parse_and_print_header_report h b).Perm (header_segment_tuples h)
    ∧ List.Sorted (fun x y => y.2.2.2 ≤ x.2.2.2)
        (parse_and_print_header_report h true) := by
  have hfalse : parse_and_print_header_report h false = header_segment_tuples h := by
    have hgen := filterMap_range_getElem
      (fun ft => (h.ranges ft).map (fun r => (segName ft, r.1, r.2, r.2 - r.1)))
      LayerFileEnum.all
    simpa [parse_and_print_header_report, header_segment_tuples,
      LayerFileEnum.from_usize, LayerFileEnum.to_usize] using hgen
  have htrue : parse_and_print_header_report h true =
      (List.insertionSort reportLe (parse_and_print_header_report h false)).reverse :=
    rfl
  refine ⟨hfalse, ?_, ?_⟩
  · cases b
    · rw [hfalse]
    · rw [htrue, hfalse]
      exact (List.reverse_perm _).trans (List.perm_insertionSort reportLe _)
  · rw [htrue]
    exact List.pairwise_reverse.mpr (List.sorted_insertionSort reportLe _)

/-- The run decomposition of the external sort partitions the emitted
pairs without loss or reordering. -/
theorem toRuns_flatten (m : Nat) (l : List OP) : (toRuns m l).flatten = l := by
  induction l using toRuns.induct m with
  | case1 => simp [toRuns]
  | case2 x xs ih =>
    rw [toRuns]
    rw [List.flatten_cons, ih]
    simp [List.take_append_drop]

/-- Merging two runs keeps exactly their elements. -/
theorem mergeOP_perm (xs ys : List OP) : (mergeOP xs ys).Perm (xs ++ ys) := by
  induction xs, ys using mergeOP.induct with
  | case1 ys => simp [mergeOP]
  | case2 xs => simp [mergeOP]
  | case3 x xs y ys hle ih =>
    simp only [mergeOP, if_pos hle]
    simpa using ih.cons x
  | case4 x xs y ys hle ih =>
    simp only [mergeOP, if_neg hle]
    exact (ih.cons y).trans List.perm_middle.symm

/-- Merging two sorted runs yields a sorted run. -/
theorem mergeOP_sorted (xs ys : List OP) (hxs : xs.Sorted opLe)
    (hys : ys.Sorted opLe) : (mergeOP xs ys).Sorted opLe := by
  induction xs, ys using mergeOP.induct with
  | case1 ys => simpa [mergeOP] using hys
  | case2 xs => simpa [mergeOP] using hxs
  | case3 x xs y ys hle ih =>
    simp only [mergeOP, if_pos hle]
    rw [List.sorted_cons]
    refine ⟨?_, ih (List.sorted_cons.mp hxs).2 hys⟩
    intro b hb
    rw [(mergeOP_perm xs (y :: ys)).mem_iff, List.mem_append] at hb
    rcases hb with hb | hb
    · exact (List.sorted_cons.mp hxs).1 b hb
    · rcases List.mem_cons.mp hb with rfl | hb
      · exact hle
      · exact IsTrans.trans x y b hle ((List.sorted_cons.mp hys).1 b hb)
  | case4 x xs y ys hle ih =>
    simp only [mergeOP, if_neg hle]
    have hyx : opLe y x := (IsTotal.total x y).resolve_left hle
    rw [List.sorted_cons]
    refine ⟨?_, ih hxs (List.sorted_cons.mp hys).2⟩
    intro b hb
    rw [(mergeOP_perm (x :: xs) ys).mem_iff, List.mem_append] at hb
    rcases hb with hb | hb
    · rcases List.mem_cons.mp hb with rfl | hb
      · exact hyx
      · exact IsTrans.trans y x b hyx ((List.sorted_cons.mp hxs).1 b hb)
    · exact (List.sorted_cons.mp hys).1 b hb

/-- The k-way merge of the per-run sorted spills keeps exactly the
original pairs. -/
theorem merge_runs_perm (rs : List (List OP)) :
    (merge_runs (rs.map (List.insertionSort opLe))).Perm rs.flatten := by
  induction rs with
  | nil => simp [merge_runs]
  | cons r rs ih =>
    simp only [List.map_cons, merge_runs, List.foldr_cons, List.flatten_cons]
    exact (mergeOP_perm _ _).trans ((List.perm_insertionSort opLe r).append ih)

/-- The k-way merge of sorted runs is sorted. -/
theorem merge_runs_sorted (rs : List (List OP)) (h : ∀ r ∈ rs, r.Sorted opLe) :
    (merge_runs rs).Sorted opLe := by
  induction rs with
  | nil => simp [merge_runs]
  | cons r rs ih =>
    simp only [merge_runs, List.foldr_cons]
    exact mergeOP_sorted r _ (h r (by simp)) (ih (fun q hq => h q (by simp [hq])))

/-- The external merge sort computes the canonical sort of the emitted
pairs, whatever its memory budget and run decomposition. -/
theorem external_sort_canonical (m : Nat) (l : List OP) :
    external_sort m l = List.insertionSort opLe l := by
  have h1 : (external_sort m l).Perm l := by
    have h := merge_runs_perm (toRuns m l)
    rw [toRuns_flatten m l] at h
    exact h
  refine List.eq_of_perm_of_sorted (h1.trans (List.perm_insertionSort opLe l).symm)
    (merge_runs_sorted _ ?_) (List.sorted_insertionSort opLe l)
  intro r hr
  obtain ⟨q, hq, rfl⟩ := List.mem_map.mp hr
  exact List.sorted_insertionSort opLe q

/-- C9: both index builds are deterministic across runs: the object-index
build produces identical output whatever memory budget and run
decomposition its external sort uses across the two runs, and the
predicate-index build is a pure function of its input, so re-running
either build on identical input yields byte-identical output files. -/
theorem index_build_deterministic (nums : List Nat) (bits : List Bool)
    (m1 m2 : Nat) (s_p_nums : List Nat) :
    build_object_index_model m1 nums bits = build_object_index_model m2 nums bits
    ∧ build_predicate_index_model s_p_nums = build_predicate_index_model s_p_nums := by
  refine ⟨?_, rfl⟩
  unfold build_object_index_model
  rw [external_sort_canonical m1, external_sort_canonical m2]
